import Mathlib

/-!
Verification of the exponential moving average (EMA) filter of
src/src/Helpers/EMA.h (template class EMA with parameters K and int_t).

The C++ code, for a shift amount K and a signed integer type int_t, keeps a
single state variable named filtered (the accumulator, initialised to 0) and
implements:

    int_t filter(int_t input) {
        input = input << (K * 2);
        int_t difference = input - filtered;
        filtered = filtered + (difference >> K);
        return (filtered + fixedPointAHalf) >> (K * 2);
    }

with the compile-time constant fixedPointAHalf = 1 << ((K * 2) - 1).

We embed int_t as the unbounded integers: the specification makes numeric
overflow a violated precondition (the type must be wide enough), so the
in-range behaviour is exactly the ideal-integer behaviour.  A left shift by
m bits is multiplication by 2 ^ m and an arithmetic (sign-preserving) right
shift by m bits is floor division by 2 ^ m, i.e. Int.fdiv.

For K = 0 the constant fixedPointAHalf is computed in C++ with the shift
amount (K * 2) - 1 = -1 (K is promoted to int), which is invalid; the
Int-valued shift amounts are modelled separately below.  The functional
definitions use the truncated natural subtraction K * 2 - 1, which agrees
with the source for every K that is at least 1.
-/

namespace EMA

/-- The compile-time rounding constant of EMA.h line 49:
fixedPointAHalf = 1 << ((K * 2) - 1), i.e. 2 ^ (K * 2 - 1).
Faithful to the source for K at least 1 (for K = 0 the C++ shift amount is
negative, see the shift-amount model below). -/
def fixedPointAHalf (K : Nat) : Int := 2 ^ (K * 2 - 1)

/-- One call of EMA<K, int_t>::filter (EMA.h lines 54-60), acting on the
single state variable named filtered.  Returns the pair of the new state and
the returned output:
  input << (K * 2)            is  input * 2 ^ (K * 2),
  difference >> K             is  Int.fdiv difference (2 ^ K),
  ... >> (K * 2)              is  Int.fdiv ... (2 ^ (K * 2)). -/
def filter (K : Nat) (filtered input : Int) : Int × Int :=
  let input' := input * 2 ^ (K * 2)
  let difference := input' - filtered
  let filtered' := filtered + Int.fdiv difference (2 ^ K)
  (filtered', Int.fdiv (filtered' + fixedPointAHalf K) (2 ^ (K * 2)))

/-- The output sequence produced by feeding the list of inputs, in order,
starting from the state s. -/
def outputs (K : Nat) (s : Int) : List Int → List Int
  | [] => []
  | x :: xs => (filter K s x).2 :: outputs K (filter K s x).1 xs

/-- The sequence of accumulator values after each call, feeding the list of
inputs in order starting from the state s. -/
def states (K : Nat) (s : Int) : List Int → List Int
  | [] => []
  | x :: xs => (filter K s x).1 :: states K (filter K s x).1 xs

/-- The accumulator after feeding the list of inputs, in order, starting
from the state s. -/
def finalState (K : Nat) (s : Int) : List Int → Int
  | [] => s
  | x :: xs => finalState K (filter K s x).1 xs

/-- Big-step run relation: Run K s xs ys t holds when feeding the inputs xs
to a filter in state s produces the outputs ys and leaves the filter in
state t. -/
inductive Run (K : Nat) : Int → List Int → List Int → Int → Prop
  | nil (s : Int) : Run K s [] [] s
  | cons {s s' y t : Int} {x : Int} {xs ys : List Int} :
      filter K s x = (s', y) → Run K s' xs ys t → Run K s (x :: xs) (y :: ys) t

/-- The accumulator before call n + 1 when the constant input x is fed to a
freshly constructed filter (accumulator 0): iterState K x n is the state
after n calls. -/
def iterState (K : Nat) (x : Int) : Nat → Int
  | 0 => 0
  | n + 1 => (filter K (iterState K x n) x).1

/-- The output of call n + 1 when the constant input x is fed to a freshly
constructed filter: iterOutput K x n is the (n + 1)-st returned value. -/
def iterOutput (K : Nat) (x : Int) (n : Nat) : Int :=
  (filter K (iterState K x n) x).2

/-- The filter step as the specification words it (section 4 of the spec):
scale the input by 2 ^ (2 K), take the difference with the accumulator,
add the difference arithmetically shifted right by K to the accumulator,
and descale the accumulator with the round-to-nearest constant 2 ^ (2 K - 1).
Returns the pair of the new accumulator and the output. -/
def filterSpec (K : Nat) (accumulator input : Int) : Int × Int :=
  let scaled_input := input * 2 ^ (2 * K)
  let difference := scaled_input - accumulator
  let accumulator' := accumulator + Int.fdiv difference (2 ^ K)
  (accumulator', Int.fdiv (accumulator' + 2 ^ (2 * K - 1)) (2 ^ (2 * K)))

/-- The shift amount of the C++ expression 1 << ((K * 2) - 1) computing
fixedPointAHalf: K has type uint8_t, so K * 2 and the subtraction are
carried out in the promoted type int, giving the signed value K * 2 - 1. -/
def aHalfShiftAmount (K : Nat) : Int := (K : Int) * 2 - 1

/-- The shift amount K * 2 used for scaling and descaling in filter. -/
def scaleShiftAmount (K : Nat) : Int := (K : Int) * 2

/-- The shift amount K used for the accumulator update in filter. -/
def accShiftAmount (K : Nat) : Int := (K : Int)

/-- All shift amounts occurring in the class are valid, i.e. non-negative
(a C++ shift by a negative amount is undefined). -/
def shiftAmountsValid (K : Nat) : Prop :=
  0 ≤ aHalfShiftAmount K ∧ 0 ≤ scaleShiftAmount K ∧ 0 ≤ accShiftAmount K

instance (K : Nat) : Decidable (shiftAmountsValid K) := by
  unfold shiftAmountsValid; infer_instance

/-! ### Basic lemmas about one filter step -/

theorem two_pow_pos (K : Nat) : (0 : Int) < 2 ^ K := by positivity

/-- The new state of a call, with the arithmetic shift written as Euclidean
division (the two agree because the divisor 2 ^ K is positive). -/
theorem filter_fst (K : Nat) (s x : Int) :
    (filter K s x).1 = s + (x * 2 ^ (K * 2) - s) / 2 ^ K := by
  show s + Int.fdiv (x * 2 ^ (K * 2) - s) (2 ^ K) = _
  rw [Int.fdiv_eq_ediv _ (two_pow_pos K).le]

/-- The output of a call, in terms of the new state. -/
theorem filter_snd (K : Nat) (s x : Int) :
    (filter K s x).2 = ((filter K s x).1 + fixedPointAHalf K) / 2 ^ (K * 2) :=
  Int.fdiv_eq_ediv _ (two_pow_pos (K * 2)).le

theorem aHalf_nonneg (K : Nat) : 0 ≤ fixedPointAHalf K := by
  unfold fixedPointAHalf; positivity

theorem aHalf_lt (K : Nat) (hK : 1 ≤ K) : fixedPointAHalf K < 2 ^ (K * 2) := by
  have h : K * 2 - 1 < K * 2 := by omega
  exact pow_lt_pow_right₀ one_lt_two h

theorem pow_le_aHalf (K : Nat) (hK : 1 ≤ K) : (2 : Int) ^ K ≤ fixedPointAHalf K := by
  have h : K ≤ K * 2 - 1 := by omega
  exact pow_le_pow_right₀ one_le_two h

/-- When the state is at most the scaled input, a step moves the state
upward but not past the scaled input. -/
theorem step_mono_of_le (K : Nat) (x s : Int) (h : s ≤ x * 2 ^ (K * 2)) :
    s ≤ (filter K s x).1 ∧ (filter K s x).1 ≤ x * 2 ^ (K * 2) := by
  rw [filter_fst]
  have hp := two_pow_pos K
  have hd : 0 ≤ x * 2 ^ (K * 2) - s := by linarith
  have h1 : 0 ≤ (x * 2 ^ (K * 2) - s) / 2 ^ K := Int.ediv_nonneg hd hp.le
  have h2 : (x * 2 ^ (K * 2) - s) / 2 ^ K ≤ x * 2 ^ (K * 2) - s :=
    Int.ediv_le_self _ hd
  constructor <;> linarith

/-- When the state is at least the scaled input, a step moves the state
downward but not past the scaled input. -/
theorem step_of_ge (K : Nat) (x s : Int) (h : x * 2 ^ (K * 2) ≤ s) :
    x * 2 ^ (K * 2) ≤ (filter K s x).1 ∧ (filter K s x).1 ≤ s := by
  rw [filter_fst]
  have hp := two_pow_pos K
  have hd : x * 2 ^ (K * 2) - s ≤ 0 := by linarith
  have h1 : (x * 2 ^ (K * 2) - s) / 2 ^ K ≤ 0 := by
    calc (x * 2 ^ (K * 2) - s) / 2 ^ K ≤ 0 / 2 ^ K := Int.ediv_le_ediv hp hd
    _ = 0 := Int.zero_ediv _
  have h2 : x * 2 ^ (K * 2) - s ≤ (x * 2 ^ (K * 2) - s) / 2 ^ K := by
    have hm : (x * 2 ^ (K * 2) - s) * 2 ^ K ≤ (x * 2 ^ (K * 2) - s) * 1 :=
      mul_le_mul_of_nonpos_left hp hd
    calc x * 2 ^ (K * 2) - s
        = (x * 2 ^ (K * 2) - s) * 2 ^ K / 2 ^ K :=
          (Int.mul_ediv_cancel _ (ne_of_gt hp)).symm
    _ ≤ (x * 2 ^ (K * 2) - s) / 2 ^ K := Int.ediv_le_ediv hp (by linarith)
  constructor <;> linarith

/-- Progress, positive side: while the state is at least 2 ^ K below the
scaled input, a step raises it by at least one. -/
theorem step_progress_pos (K : Nat) (x s : Int)
    (h : s + 2 ^ K ≤ x * 2 ^ (K * 2)) : s + 1 ≤ (filter K s x).1 := by
  rw [filter_fst]
  have hp := two_pow_pos K
  have h1 : 1 ≤ (x * 2 ^ (K * 2) - s) / 2 ^ K :=
    (Int.le_ediv_iff_mul_le hp).2 (by linarith)
  linarith

/-- Progress, negative side: while the state is strictly above the scaled
input, a step lowers it by at least one. -/
theorem step_progress_neg (K : Nat) (x s : Int)
    (h : x * 2 ^ (K * 2) + 1 ≤ s) : (filter K s x).1 ≤ s - 1 := by
  rw [filter_fst]
  have hp := two_pow_pos K
  have h1 : (x * 2 ^ (K * 2) - s) / 2 ^ K < 0 :=
    Int.ediv_neg' (by linarith) hp
  omega

/-- Stall: once the state is within 2 ^ K below the scaled input, a step
leaves it unchanged. -/
theorem step_stall (K : Nat) (x s : Int) (h1 : 0 ≤ x * 2 ^ (K * 2) - s)
    (h2 : x * 2 ^ (K * 2) - s < 2 ^ K) : (filter K s x).1 = s := by
  rw [filter_fst, Int.ediv_eq_zero_of_lt h1 h2, add_zero]

/-- Descaling a state within fixedPointAHalf below the scaled input
reproduces the input exactly. -/
theorem descale_eq_of_close (K : Nat) (x t : Int) (hK : 1 ≤ K)
    (h0 : 0 ≤ x * 2 ^ (K * 2) - t) (h1 : x * 2 ^ (K * 2) - t ≤ fixedPointAHalf K) :
    (t + fixedPointAHalf K) / 2 ^ (K * 2) = x := by
  have hC := two_pow_pos (K * 2)
  have hlt := aHalf_lt K hK
  have hre : t + fixedPointAHalf K
      = (fixedPointAHalf K - (x * 2 ^ (K * 2) - t)) + x * 2 ^ (K * 2) := by ring
  rw [hre, Int.add_mul_ediv_right _ _ (ne_of_gt hC),
    Int.ediv_eq_zero_of_lt (by linarith) (by linarith), zero_add]

/-- Descaling a state at most the scaled input never exceeds the input. -/
theorem descale_le_of_le (K : Nat) (x t : Int) (hK : 1 ≤ K)
    (h : t ≤ x * 2 ^ (K * 2)) : (t + fixedPointAHalf K) / 2 ^ (K * 2) ≤ x := by
  have hC := two_pow_pos (K * 2)
  have hlt := aHalf_lt K hK
  have h1 : (t + fixedPointAHalf K) / 2 ^ (K * 2) < x + 1 :=
    (Int.ediv_lt_iff_lt_mul hC).2 (by linarith [mul_comm (x + 1) ((2:Int) ^ (K * 2))] )
  omega

end EMA

/-! ### Claims -/

namespace EMA

/-- C1: for every shift K at least 1 (for K = 0 the rounding constant of the
source is undefined, see C8), a call of filter computes exactly the steps of
the specification: scale the input by 2 ^ (2 K), subtract the accumulator,
add the difference arithmetically shifted right by K to the accumulator, and
return the accumulator plus 2 ^ (2 K - 1), arithmetically shifted right by
2 K, with no other change to the state. -/
theorem c1_filter_matches_spec_algorithm (K : Nat) (s x : Int) (hK : 1 ≤ K) :
    filter K s x = filterSpec K s x := by
  simp [filter, filterSpec, fixedPointAHalf, Nat.mul_comm]

theorem c1_witness :
    1 ≤ 1 ∧ filter 1 5 3 = filterSpec 1 5 3 :=
  ⟨le_refl 1, c1_filter_matches_spec_algorithm 1 5 3 (le_refl 1)⟩

/-- C2: with K = 4 and a wide-enough signed sample type, a single call
filter(100) on a freshly constructed filter (accumulator 0) returns exactly
6, and the accumulator after the call is 1600. -/
theorem c2_literal_scenario : filter 4 0 100 = (1600, 6) := by decide

/-- C7: the scaled prediction error shrinks per step exactly as
new error = old error - (old error >> K) with an arithmetic shift, and this
differs from (1 - 2 ^ -K) times the old error by less than one
shift-rounding unit: multiplied through by 2 ^ K, the difference between
(new error) * 2 ^ K and (old error) * (2 ^ K - 1) lies in [0, 2 ^ K). -/
theorem c7_error_decay (K : Nat) (s x : Int) :
    x * 2 ^ (K * 2) - (filter K s x).1
      = (x * 2 ^ (K * 2) - s) - Int.fdiv (x * 2 ^ (K * 2) - s) (2 ^ K) ∧
    0 ≤ (x * 2 ^ (K * 2) - (filter K s x).1) * 2 ^ K
        - (x * 2 ^ (K * 2) - s) * (2 ^ K - 1) ∧
    (x * 2 ^ (K * 2) - (filter K s x).1) * 2 ^ K
        - (x * 2 ^ (K * 2) - s) * (2 ^ K - 1) < 2 ^ K := by
  have hp := two_pow_pos K
  have heq : x * 2 ^ (K * 2) - (filter K s x).1
      = (x * 2 ^ (K * 2) - s) - (x * 2 ^ (K * 2) - s) / 2 ^ K := by
    rw [filter_fst]; ring
  refine ⟨by rw [heq, Int.fdiv_eq_ediv _ hp.le], ?_, ?_⟩ <;>
  · rw [heq]
    have hd := Int.ediv_add_emod (x * 2 ^ (K * 2) - s) (2 ^ K)
    have h1 := Int.emod_nonneg (x * 2 ^ (K * 2) - s) (ne_of_gt hp)
    have h2 := Int.emod_lt_of_pos (x * 2 ^ (K * 2) - s) hp
    have key : ((x * 2 ^ (K * 2) - s) - (x * 2 ^ (K * 2) - s) / 2 ^ K) * 2 ^ K
        - (x * 2 ^ (K * 2) - s) * (2 ^ K - 1)
        = (x * 2 ^ (K * 2) - s) - 2 ^ K * ((x * 2 ^ (K * 2) - s) / 2 ^ K) := by
      ring
    rw [key]; linarith

/-- C8, counterexample: at K = 0 the shift amount (K * 2) - 1 computed for
the rounding constant is -1 (K is promoted to a signed int), which is not a
valid shift amount, so the claim that every non-negative K, including 0,
yields a well-defined instance fails on the code. -/
theorem c8_counterexample_K0_invalid : ¬ shiftAmountsValid 0 := by decide

/-- C8, amended: for every K at least 1, all shift amounts used by the
class (the rounding-constant amount K * 2 - 1, the scale and descale amount
K * 2, and the accumulator-update amount K) are non-negative, hence valid
shift operations. -/
theorem c8_shift_amounts_valid (K : Nat) (hK : 1 ≤ K) : shiftAmountsValid K := by
  unfold shiftAmountsValid aHalfShiftAmount scaleShiftAmount accShiftAmount
  refine ⟨?_, ?_, ?_⟩ <;> omega

theorem c8_witness : 1 ≤ 1 ∧ shiftAmountsValid 1 :=
  ⟨le_refl 1, c8_shift_amounts_valid 1 (le_refl 1)⟩

/-- C10: for every K at least 1 and every input x, if the accumulator holds
the scaled value x * 2 ^ (2 K) then the call leaves the state unchanged and
returns exactly x, for negative x as well. -/
theorem c10_scaled_fixed_point (K : Nat) (x : Int) (hK : 1 ≤ K) :
    filter K (x * 2 ^ (K * 2)) x = (x * 2 ^ (K * 2), x) := by
  have h1 : (filter K (x * 2 ^ (K * 2)) x).1 = x * 2 ^ (K * 2) :=
    step_stall K x _ (by simp) (by simp [two_pow_pos K])
  have h2 : (filter K (x * 2 ^ (K * 2)) x).2 = x := by
    rw [filter_snd, h1]
    exact descale_eq_of_close K x _ hK (by simp) (by simp [aHalf_nonneg K])
  exact Prod.ext h1 h2

theorem c10_witness :
    1 ≤ 1 ∧ filter 1 ((-1) * 2 ^ (1 * 2)) (-1) = ((-1) * 2 ^ (1 * 2), -1) :=
  ⟨le_refl 1, c10_scaled_fixed_point 1 (-1) (le_refl 1)⟩

/-- Any two runs from the same state on the same inputs produce the same
outputs and the same final state. -/
theorem run_deterministic (K : Nat) : ∀ {s : Int} {xs ys₁ ys₂ : List Int}
    {t₁ t₂ : Int}, Run K s xs ys₁ t₁ → Run K s xs ys₂ t₂ → ys₁ = ys₂ ∧ t₁ = t₂ := by
  intro s xs ys₁ ys₂ t₁ t₂ h1 h2
  induction h1 generalizing ys₂ t₂ with
  | nil s => cases h2 with
    | nil => exact ⟨rfl, rfl⟩
  | cons hf hrun ih =>
    cases h2 with
    | cons hf2 hrun2 =>
      rw [hf] at hf2
      obtain ⟨h1', h2'⟩ := Prod.mk.injEq .. ▸ hf2
      subst h1'; subst h2'
      obtain ⟨hys, ht⟩ := ih hrun2
      exact ⟨by rw [hys], ht⟩

/-- C3: for every K and finite input sequence, any two runs of that sequence
from freshly constructed (zero-state) filter instances produce identical
output sequences: the outputs are a deterministic function of K, the type
and the inputs alone. -/
theorem c3_run_deterministic (K : Nat) (xs ys₁ ys₂ : List Int) (t₁ t₂ : Int)
    (h1 : Run K 0 xs ys₁ t₁) (h2 : Run K 0 xs ys₂ t₂) : ys₁ = ys₂ :=
  (run_deterministic K h1 h2).1

theorem c3_witness : ([6] : List Int) = [6] :=
  c3_run_deterministic 4 [100] [6] [6] 1600 1600
    (Run.cons (by decide) (Run.nil 1600))
    (Run.cons (by decide) (Run.nil 1600))

/-- A single call with input 0 from state 0 returns 0 and leaves the state
at 0, for every K at least 1. -/
theorem filter_zero (K : Nat) (hK : 1 ≤ K) : filter K 0 0 = (0, 0) := by
  have h1 : (filter K 0 0).1 = 0 := by
    rw [filter_fst]; simp
  have h2 : (filter K 0 0).2 = 0 := by
    rw [filter_snd, h1, zero_add]
    exact Int.ediv_eq_zero_of_lt (aHalf_nonneg K) (aHalf_lt K hK)
  exact Prod.ext h1 h2

/-- C4: starting from a freshly constructed filter (accumulator 0), if every
input is 0 then every call returns 0 and the accumulator remains 0 after
every call, for every K at least 1 (K = 0 is undefined in the source, see
C8). -/
theorem c4_zero_fixed_point (K n : Nat) (hK : 1 ≤ K) :
    outputs K 0 (List.replicate n 0) = List.replicate n 0 ∧
    states K 0 (List.replicate n 0) = List.replicate n 0 := by
  induction n with
  | zero => exact ⟨rfl, rfl⟩
  | succ n ih =>
    rw [List.replicate_succ]
    unfold outputs states
    rw [filter_zero K hK]
    exact ⟨by rw [ih.1], by rw [ih.2]⟩

theorem c4_witness :
    1 ≤ 1 ∧ (outputs 1 0 (List.replicate 3 0) = List.replicate 3 0 ∧
      states 1 0 (List.replicate 3 0) = List.replicate 3 0) :=
  ⟨le_refl 1, c4_zero_fixed_point 1 3 (le_refl 1)⟩

/-- A step from a state between lo and hi, on an input whose scaled value is
between lo and hi, stays between lo and hi. -/
theorem step_between (K : Nat) (x s lo hi : Int) (h1 : lo ≤ s) (h2 : s ≤ hi)
    (h3 : lo ≤ x * 2 ^ (K * 2)) (h4 : x * 2 ^ (K * 2) ≤ hi) :
    lo ≤ (filter K s x).1 ∧ (filter K s x).1 ≤ hi := by
  rcases le_total s (x * 2 ^ (K * 2)) with h | h
  · obtain ⟨ha, hb⟩ := step_mono_of_le K x s h
    exact ⟨le_trans h1 ha, le_trans hb h4⟩
  · obtain ⟨ha, hb⟩ := step_of_ge K x s h
    exact ⟨le_trans h3 ha, le_trans hb h2⟩

/-- The accumulator stays between any bounds that enclose the start state
and the scaled value of every input fed. -/
theorem finalState_between (K : Nat) (lo hi : Int) :
    ∀ (xs : List Int) (s : Int), lo ≤ s → s ≤ hi →
    (∀ x ∈ xs, lo ≤ x * 2 ^ (K * 2) ∧ x * 2 ^ (K * 2) ≤ hi) →
    lo ≤ finalState K s xs ∧ finalState K s xs ≤ hi := by
  intro xs
  induction xs with
  | nil => intro s h1 h2 _; exact ⟨h1, h2⟩
  | cons x xs ih =>
    intro s h1 h2 h3
    obtain ⟨hx1, hx2⟩ := h3 x (List.mem_cons_self x xs)
    obtain ⟨ha, hb⟩ := step_between K x s lo hi h1 h2 hx1 hx2
    exact ih _ ha hb (fun y hy => h3 y (List.mem_cons_of_mem x hy))

theorem foldr_min_nonpos (K : Nat) (ys : List Int) :
    ys.foldr (fun x m => min (x * 2 ^ (K * 2)) m) 0 ≤ 0 := by
  induction ys with
  | nil => exact le_refl 0
  | cons y ys ih => exact le_trans (min_le_right _ _) ih

theorem foldr_max_nonneg (K : Nat) (ys : List Int) :
    0 ≤ ys.foldr (fun x m => max (x * 2 ^ (K * 2)) m) 0 := by
  induction ys with
  | nil => exact le_refl 0
  | cons y ys ih => exact le_trans ih (le_max_right _ _)

theorem foldr_min_le (K : Nat) (ys : List Int) :
    ∀ x ∈ ys, ys.foldr (fun x m => min (x * 2 ^ (K * 2)) m) 0 ≤ x * 2 ^ (K * 2) := by
  induction ys with
  | nil => intro x hx; cases hx
  | cons y ys ih =>
    intro x hx
    rcases List.mem_cons.1 hx with h | h
    · subst h; exact min_le_left _ _
    · exact le_trans (min_le_right _ _) (ih x h)

theorem le_foldr_max (K : Nat) (ys : List Int) :
    ∀ x ∈ ys, x * 2 ^ (K * 2) ≤ ys.foldr (fun x m => max (x * 2 ^ (K * 2)) m) 0 := by
  induction ys with
  | nil => intro x hx; cases hx
  | cons y ys ih =>
    intro x hx
    rcases List.mem_cons.1 hx with h | h
    · subst h; exact le_max_left _ _
    · exact le_trans (ih x h) (le_max_right _ _)

/-- C9: for every K at least 1 and every input sequence fed to a freshly
constructed filter, the accumulator after each call (the state after any
prefix of the inputs) lies between the minimum of 0 and all scaled inputs
seen so far and the maximum of 0 and all scaled inputs seen so far, where
the scaled value of an input x is x * 2 ^ (2 K); bounded inputs keep the
accumulator bounded. -/
theorem c9_accumulator_bounded (K : Nat) (xs : List Int) (hK : 1 ≤ K) :
    ∀ n : Nat,
      (xs.take n).foldr (fun x m => min (x * 2 ^ (K * 2)) m) 0
          ≤ finalState K 0 (xs.take n) ∧
      finalState K 0 (xs.take n)
          ≤ (xs.take n).foldr (fun x m => max (x * 2 ^ (K * 2)) m) 0 := by
  intro n
  exact finalState_between K _ _ (xs.take n) 0
    (foldr_min_nonpos K (xs.take n)) (foldr_max_nonneg K (xs.take n))
    (fun x hx => ⟨foldr_min_le K (xs.take n) x hx, le_foldr_max K (xs.take n) x hx⟩)

theorem c9_witness :
    1 ≤ 4 ∧ (∀ n : Nat,
      (([100, -5] : List Int).take n).foldr (fun x m => min (x * 2 ^ (4 * 2)) m) 0
          ≤ finalState 4 0 (([100, -5] : List Int).take n) ∧
      finalState 4 0 (([100, -5] : List Int).take n)
          ≤ (([100, -5] : List Int).take n).foldr (fun x m => max (x * 2 ^ (4 * 2)) m) 0) :=
  ⟨by decide, c9_accumulator_bounded 4 [100, -5] (by decide)⟩

/-! ### Constant-input step response -/

theorem iterState_succ (K : Nat) (x : Int) (n : Nat) :
    iterState K x (n + 1) = (filter K (iterState K x n) x).1 := rfl

/-- The output of call n + 1 descales the state reached after that call. -/
theorem iterOutput_eq (K : Nat) (x : Int) (n : Nat) :
    iterOutput K x n = (iterState K x (n + 1) + fixedPointAHalf K) / 2 ^ (K * 2) :=
  filter_snd K (iterState K x n) x

theorem iterState_le_scaled (K : Nat) (x : Int) (hx : 0 ≤ x) :
    ∀ n : Nat, iterState K x n ≤ x * 2 ^ (K * 2) := by
  intro n
  induction n with
  | zero => exact mul_nonneg hx (two_pow_pos (K * 2)).le
  | succ n ih => exact (step_mono_of_le K x _ ih).2

theorem iterState_mono (K : Nat) (x : Int) (hx : 0 ≤ x) (n : Nat) :
    iterState K x n ≤ iterState K x (n + 1) :=
  (step_mono_of_le K x _ (iterState_le_scaled K x hx n)).1

/-- Either the remaining error is already below one update quantum, or it
has shrunk by at least one per call so far. -/
theorem iterState_err_cases (K : Nat) (x : Int) (hx : 0 ≤ x) :
    ∀ n : Nat, x * 2 ^ (K * 2) - iterState K x n < 2 ^ K ∨
      x * 2 ^ (K * 2) - iterState K x n ≤ x * 2 ^ (K * 2) - (n : Int) := by
  intro n
  induction n with
  | zero => right; simp [iterState]
  | succ n ih =>
    have hs := iterState_le_scaled K x hx n
    by_cases h : x * 2 ^ (K * 2) - iterState K x n < 2 ^ K
    · left
      rw [iterState_succ, step_stall K x _ (by linarith) h]
      exact h
    · right
      push_neg at h
      have hp : iterState K x n + 1 ≤ iterState K x (n + 1) := by
        rw [iterState_succ]
        exact step_progress_pos K x _ (by linarith)
      rcases ih with h' | h'
      · exact absurd h' (by linarith)
      · push_cast
        linarith

theorem iterState_converged_pos (K : Nat) (x : Int) (hx : 0 ≤ x) (n : Nat)
    (hn : x * 2 ^ (K * 2) ≤ (n : Int)) :
    0 ≤ x * 2 ^ (K * 2) - iterState K x n ∧
    x * 2 ^ (K * 2) - iterState K x n < 2 ^ K := by
  have hs := iterState_le_scaled K x hx n
  refine ⟨by linarith, ?_⟩
  rcases iterState_err_cases K x hx n with h | h
  · exact h
  · have := two_pow_pos K
    linarith

/-- C5, amended: for every K at least 1 and every positive constant input x
fed to a freshly constructed filter, the output sequence is non-decreasing
(not strictly increasing: see the counterexample), never overshoots x, and
equals exactly x from call number x * 2 ^ (2 K) on (a closed-form bound on
the settling time). -/
theorem c5_positive_constant_input (K : Nat) (x : Int) (hK : 1 ≤ K)
    (hx : 0 < x) :
    (∀ n : Nat, iterOutput K x n ≤ iterOutput K x (n + 1)) ∧
    (∀ n : Nat, iterOutput K x n ≤ x) ∧
    (∀ n : Nat, x * 2 ^ (K * 2) ≤ (n : Int) → iterOutput K x n = x) := by
  refine ⟨?_, ?_, ?_⟩
  · intro n
    rw [iterOutput_eq, iterOutput_eq]
    exact Int.ediv_le_ediv (two_pow_pos (K * 2))
      (add_le_add_right (iterState_mono K x hx.le (n + 1)) _)
  · intro n
    rw [iterOutput_eq]
    exact descale_le_of_le K x _ hK (iterState_le_scaled K x hx.le (n + 1))
  · intro n hn
    have hn' : x * 2 ^ (K * 2) ≤ ((n + 1 : Nat) : Int) := by push_cast; linarith
    obtain ⟨h0, h1⟩ := iterState_converged_pos K x hx.le (n + 1) hn'
    rw [iterOutput_eq]
    exact descale_eq_of_close K x _ hK h0 (le_trans h1.le (pow_le_aHalf K hK))

theorem c5_witness :
    1 ≤ 1 ∧ (0 : Int) < 1 ∧
    ((∀ n : Nat, iterOutput 1 1 n ≤ iterOutput 1 1 (n + 1)) ∧
     (∀ n : Nat, iterOutput 1 1 n ≤ 1) ∧
     (∀ n : Nat, (1 : Int) * 2 ^ (1 * 2) ≤ (n : Int) → iterOutput 1 1 n = 1)) :=
  ⟨le_refl 1, by decide, c5_positive_constant_input 1 1 (le_refl 1) (by decide)⟩

/-- C5, counterexample: with K = 4 and constant input 100 from a freshly
constructed filter, the outputs of calls 30 and 31 are both 86, strictly
below the limit 100 first reached at call 84: the output sequence is not
strictly monotonic during the approach to the limit, only non-decreasing. -/
theorem c5_counterexample_not_strictly_monotonic :
    iterOutput 4 100 29 = 86 ∧ iterOutput 4 100 30 = 86 ∧
    iterOutput 4 100 29 < 100 ∧ iterOutput 4 100 83 = 100 := by
  refine ⟨?_, ?_, ?_, ?_⟩ <;> · set_option maxRecDepth 8000 in decide

theorem scaled_le_iterState (K : Nat) (x : Int) (hx : x ≤ 0) :
    ∀ n : Nat, x * 2 ^ (K * 2) ≤ iterState K x n := by
  intro n
  induction n with
  | zero => exact mul_nonpos_of_nonpos_of_nonneg hx (two_pow_pos (K * 2)).le
  | succ n ih => exact (step_of_ge K x _ ih).1

theorem iterState_anti (K : Nat) (x : Int) (hx : x ≤ 0) (n : Nat) :
    iterState K x (n + 1) ≤ iterState K x n :=
  (step_of_ge K x _ (scaled_le_iterState K x hx n)).2

/-- Either the state has already reached the scaled input exactly, or it has
dropped by at least one per call so far. -/
theorem iterState_reach_cases (K : Nat) (x : Int) (hx : x ≤ 0) :
    ∀ n : Nat, iterState K x n = x * 2 ^ (K * 2) ∨
      iterState K x n ≤ -(n : Int) := by
  intro n
  induction n with
  | zero => right; simp [iterState]
  | succ n ih =>
    have hs := scaled_le_iterState K x hx n
    by_cases h : iterState K x n = x * 2 ^ (K * 2)
    · left
      rw [iterState_succ, h, step_stall K x _ (by simp) (by simp [two_pow_pos K])]
    · right
      have hgt : x * 2 ^ (K * 2) + 1 ≤ iterState K x n := by
        rcases lt_or_eq_of_le hs with h' | h'
        · linarith
        · exact absurd h'.symm h
      have hp : iterState K x (n + 1) ≤ iterState K x n - 1 := by
        rw [iterState_succ]
        exact step_progress_neg K x _ hgt
      rcases ih with h' | h'
      · exact absurd h' h
      · push_cast
        linarith

/-- For a non-positive constant input, the state reaches the scaled input
exactly after at most its magnitude many calls. -/
theorem iterState_converged_neg (K : Nat) (x : Int) (hx : x ≤ 0) (n : Nat)
    (hn : -(x * 2 ^ (K * 2)) ≤ (n : Int)) :
    iterState K x n = x * 2 ^ (K * 2) := by
  rcases iterState_reach_cases K x hx n with h | h
  · exact h
  · exact le_antisymm (by linarith) (scaled_le_iterState K x hx n)

/-- C6: for every K at least 1 and every negative constant input x fed to a
freshly constructed filter, the output sequence is non-increasing and
converges to exactly x: from call number -(x * 2 ^ (2 K)) on, every output
equals x.  This relies on the right shift of negative differences being
arithmetic (floor): the state descends to the scaled input exactly. -/
theorem c6_negative_constant_input (K : Nat) (x : Int) (hK : 1 ≤ K)
    (hx : x < 0) :
    (∀ n : Nat, iterOutput K x (n + 1) ≤ iterOutput K x n) ∧
    (∀ n : Nat, -(x * 2 ^ (K * 2)) ≤ (n : Int) → iterOutput K x n = x) := by
  constructor
  · intro n
    rw [iterOutput_eq, iterOutput_eq]
    exact Int.ediv_le_ediv (two_pow_pos (K * 2))
      (add_le_add_right (iterState_anti K x hx.le (n + 1)) _)
  · intro n hn
    have hn' : -(x * 2 ^ (K * 2)) ≤ ((n + 1 : Nat) : Int) := by
      push_cast; linarith
    rw [iterOutput_eq, iterState_converged_neg K x hx.le (n + 1) hn']
    exact descale_eq_of_close K x _ hK (by simp) (by simp [aHalf_nonneg])

theorem c6_witness :
    1 ≤ 1 ∧ (-1 : Int) < 0 ∧
    ((∀ n : Nat, iterOutput 1 (-1) (n + 1) ≤ iterOutput 1 (-1) n) ∧
     (∀ n : Nat, -((-1 : Int) * 2 ^ (1 * 2)) ≤ (n : Int) → iterOutput 1 (-1) n = -1)) :=
  ⟨le_refl 1, by decide, c6_negative_constant_input 1 (-1) (le_refl 1) (by decide)⟩

end EMA
